import Mathlib

/-!
# sing-geoip: the decode / classify / rebuild pipeline of `main.go`

A shallow embedding of `parse`, `newWriter`, `write` and `release`.

* The MaxMind reader (`maxminddb`), the tree writer (`mmdbwriter`), the file
  system and the GitHub client are libraries outside the repository.  Their
  calls appear here as fields of an environment `Env`, and every call made is
  recorded in a log of `Call`s, so that "was the file created" is a statement
  about a value.
* A Go `map[string][]*net.IPNet` is an association list with distinct keys
  (`AList`).  The order in which a `range` statement visits a map is chosen by
  the Go runtime; each `range` statement therefore takes a `Ranger`, which
  returns some permutation of the entries.
-/

namespace SingGeoip

/-! ## Data model -/

/-- Go `error` values: only their identity matters. -/
abbrev Error := String

/-- A `net.IPNet`: an address of `bits` bits (32 or 128) and a prefix length. -/
structure IPNet where
  bits : Nat
  addr : Nat
  prefixLen : Nat
deriving DecidableEq, Repr

/-- A single address, `net.IP`. -/
structure IP where
  bits : Nat
  addr : Nat
deriving DecidableEq, Repr

/-- Go `(*net.IPNet).Contains`: same family and same leading `prefixLen` bits. -/
def IPNet.Contains (n : IPNet) (ip : IP) : Bool :=
  ip.bits == n.bits &&
    ip.addr / 2 ^ (n.bits - n.prefixLen) == n.addr / 2 ^ (n.bits - n.prefixLen)

/-- The part `Country`, `RegisteredCountry`, `RepresentedCountry` of
`geoip2.Enterprise` that `parse` reads. -/
structure CountryField where
  IsoCode : String
deriving DecidableEq, Repr

/-- The part `Continent` of `geoip2.Enterprise` that `parse` reads. -/
structure ContinentField where
  Code : String
deriving DecidableEq, Repr

/-- The fields of `geoip2.Enterprise` that `parse` reads. -/
structure Enterprise where
  Country : CountryField
  RegisteredCountry : CountryField
  RepresentedCountry : CountryField
  Continent : ContinentField
deriving DecidableEq, Repr

/-- The zero value that `var country geoip2.Enterprise` declares. -/
def Enterprise.zero : Enterprise :=
  ⟨⟨""⟩, ⟨""⟩, ⟨""⟩, ⟨""⟩⟩

/-- The fields of `maxminddb.Metadata` that `newWriter` reads. -/
structure Metadata where
  IPVersion : Nat
  RecordSize : Nat
deriving DecidableEq, Repr

/-- The zero value of `maxminddb.Metadata`. -/
def Metadata.zero : Metadata := ⟨0, 0⟩

/-- A `map[string][]*net.IPNet`. -/
abbrev CodeMap := AList (fun _ : String => List IPNet)

/-- Go map indexing `m[code]`: the stored slice, or `nil` for an absent key. -/
def CodeMap.get (m : CodeMap) (code : String) : List IPNet :=
  (m.lookup code).getD []

/-- What a reader opened by `maxminddb.FromBytes` holds, as far as `parse`
observes it: the metadata, the entries that `Networks(SkipAliasedNetworks)`
visits (each either fails to decode or carries a network and its stored
record, of a type `ρ` left to the library), and the error `networks.Err()`
reports when iteration has stopped. -/
structure Database (ρ : Type) where
  Metadata : Metadata
  entries : List (Except Error (IPNet × ρ))
  iterErr : Option Error

/-! ## parse -/

/-- Go `strings.ToLower`: every character of the string mapped through
`unicode.ToLower`.  The Unicode case table belongs to the Go library, so the
map on characters is the parameter `lower`. -/
def ToLower (lower : Char → Char) (s : String) : String :=
  ⟨s.data.map lower⟩

/-- Lines 89-100 of `parse`: the code of the current value of `country`, or
`none` where the loop executes `continue`. -/
def resolveCode (lower : Char → Char) (country : Enterprise) : Option String :=
  if country.Country.IsoCode != "" then
    some (ToLower lower country.Country.IsoCode)
  else if country.RegisteredCountry.IsoCode != "" then
    some (ToLower lower country.RegisteredCountry.IsoCode)
  else if country.RepresentedCountry.IsoCode != "" then
    some (ToLower lower country.RepresentedCountry.IsoCode)
  else if country.Continent.Code != "" then
    some (ToLower lower country.Continent.Code)
  else
    none

/-- The loop of `parse` (lines 84-102).  `unmarshal r c` is the value of
`country` after `networks.Network(&country)` has decoded the stored record `r`
into a variable that held `c`; the variable is declared once, before the loop,
so each iteration starts from the value the previous one left.  Returns the map
built so far and the error of a failed `Network` call. -/
def parseLoop {ρ : Type} (lower : Char → Char) (unmarshal : ρ → Enterprise → Enterprise) :
    List (Except Error (IPNet × ρ)) → Enterprise → CodeMap → CodeMap × Option Error
  | [], _, countryMap => (countryMap, none)
  | .error err :: _, _, countryMap => (countryMap, some err)
  | .ok (ipNet, r) :: rest, country, countryMap =>
    let country := unmarshal r country
    match resolveCode lower country with
    | none => parseLoop lower unmarshal rest country countryMap
    | some code =>
      parseLoop lower unmarshal rest country
        (countryMap.insert code (countryMap.get code ++ [ipNet]))

/-- The three named results of `parse`. -/
structure ParseResult where
  metadata : Metadata
  countryMap : CodeMap
  err : Option Error

/-- Go `parse`, applied to the result of `maxminddb.FromBytes(binary)`. -/
def parse {ρ : Type} (lower : Char → Char) (unmarshal : ρ → Enterprise → Enterprise)
    (opened : Except Error (Database ρ)) : ParseResult :=
  match opened with
  | .error err => ⟨Metadata.zero, ∅, some err⟩
  | .ok database =>
    match parseLoop lower unmarshal database.entries Enterprise.zero ∅ with
    | (countryMap, some err) => ⟨database.Metadata, countryMap, some err⟩
    | (countryMap, none) => ⟨database.Metadata, countryMap, database.iterErr⟩

/-- The pairs the loop of `parse` works on: each network that `Network`
returns, with the value of `country` right after that call. -/
def seen {ρ : Type} (unmarshal : ρ → Enterprise → Enterprise) :
    List (Except Error (IPNet × ρ)) → Enterprise → List (IPNet × Enterprise)
  | [], _ => []
  | .error _ :: _, _ => []
  | .ok (ipNet, r) :: rest, country =>
    (ipNet, unmarshal r country) :: seen unmarshal rest (unmarshal r country)

/-- A stored record: for each of the four paths, the string stored under it,
or `none` when the record has no such key. -/
structure StoredRecord where
  country : Option String
  registeredCountry : Option String
  representedCountry : Option String
  continent : Option String
deriving DecidableEq, Repr

/-- Decoding into a struct the way `maxminddb` does it: a field is assigned
when its key occurs in the stored record and is left as it was otherwise. -/
def unmarshalPresent (r : StoredRecord) (c : Enterprise) : Enterprise :=
  { Country := ⟨r.country.getD c.Country.IsoCode⟩
    RegisteredCountry := ⟨r.registeredCountry.getD c.RegisteredCountry.IsoCode⟩
    RepresentedCountry := ⟨r.representedCountry.getD c.RepresentedCountry.IsoCode⟩
    Continent := ⟨r.continent.getD c.Continent.Code⟩ }

/-! ## The output tree -/

/-- A value of `mmdbtype.DataType`; `write` only ever builds strings. -/
inductive DataType where
  | String (s : String)
deriving DecidableEq, Repr

/-- The insertion policies of `mmdbwriter/inserter`; `newWriter` asks for
`ReplaceWith`. -/
inductive Inserter where
  | ReplaceWith
deriving DecidableEq, Repr

/-- The fields of `mmdbwriter.Options` that `newWriter` sets. -/
structure Options where
  DatabaseType : String
  Languages : List String
  IPVersion : Nat
  RecordSize : Nat
  Inserter : Inserter
  DisableIPv4Aliasing : Bool
  IncludeReservedNetworks : Bool
deriving DecidableEq, Repr

/-- Modelled from the spec: the `mmdbwriter.Tree` library type, which the
repository only calls.  "When two inserted Networks overlap, the most recently
inserted one's Code wins for the overlapping region (replace-on-insert, not
merge)": the tree is the sequence of the insertions that succeeded, oldest
first, under the options it was created with. -/
structure Tree where
  opts : Options
  inserted : List (IPNet × DataType)
deriving DecidableEq, Repr

/-- Modelled from the spec: looking an address up in the output tree gives the
value of the most recently inserted network that contains it, or nothing. -/
def Tree.Lookup (t : Tree) (ip : IP) : Option DataType :=
  (t.inserted.reverse.find? (fun e => e.1.Contains ip)).map (fun e => e.2)

/-- One entry of a `map[string][]*net.IPNet`. -/
abbrev Entry := (_ : String) × List IPNet

/-- One execution of `for code, data := range m`: every entry of the map once,
in an order the runtime picks. -/
abbrev Ranger := (m : CodeMap) → { l : List Entry // l.Perm m.entries }

/-- The calls `newWriter` and `write` make on the tree library and the file
system, as they appear in the log of a run. -/
inductive Call where
  | New (opts : Options)
  | Insert (item : IPNet) (value : DataType)
  | Create (output : String)
  | WriteTo (output : String) (content : List (IPNet × DataType))
deriving DecidableEq, Repr

/-- Everything outside the repository that a run depends on.  `lower` is
`unicode.ToLower`, which `strings.ToLower` applies to every character; `fetch` and
`download` stand for the GitHub and HTTP round trips of lines 38-62; `New`,
`Insert`, `Create` and `WriteTo` give the error, if any, of the library or
system call of that name; the three rangers are the iteration orders of the
`range` statements at lines 165, 122 and 131. -/
structure Env (ρ σ : Type) where
  lower : Char → Char
  fetch : String → Except Error σ
  download : σ → Except Error (List Nat)
  FromBytes : List Nat → Except Error (Database ρ)
  unmarshal : ρ → Enterprise → Enterprise
  New : Options → Option Error
  Insert : Tree → IPNet → DataType → Option Error
  Create : String → Option Error
  WriteTo : Tree → String → Option Error
  rangeAllCodes : Ranger
  rangeCodes : Ranger
  rangeData : Ranger

/-! ## newWriter and write -/

/-- The options `newWriter` passes to `mmdbwriter.New`. -/
def writerOptions (metadata : Metadata) (codes : List String) : Options :=
  { DatabaseType := "sing-geoip"
    Languages := codes
    IPVersion := metadata.IPVersion
    RecordSize := metadata.RecordSize
    Inserter := .ReplaceWith
    DisableIPv4Aliasing := true
    IncludeReservedNetworks := true }

/-- Go `newWriter`: an empty tree under `writerOptions`, or the error of
`mmdbwriter.New`. -/
def newWriter {ρ σ : Type} (E : Env ρ σ) (metadata : Metadata) (codes : List String) :
    Except Error Tree :=
  match E.New (writerOptions metadata codes) with
  | some err => .error err
  | none => .ok ⟨writerOptions metadata codes, []⟩

/-- Go `sort.Strings`: ascending in the lexicographic order of the characters. -/
def sortStrings (codes : List String) : List String :=
  codes.insertionSort (fun a b => a.toList ≤ b.toList)

/-- The outcome of a loop of `Insert` calls: the error that ended it, if any,
the tree, and the calls made. -/
structure Inserted where
  err : Option Error
  writer : Tree
  calls : List Call

/-- The inner loop of `write` (lines 135-140) for one entry of `dataMap`.  An
`Insert` that succeeds appends the pair to the tree; one that fails ends the
loop, and the tree is returned as it was before that call. -/
def insertData {ρ σ : Type} (E : Env ρ σ) (code : String) :
    List IPNet → Tree → Inserted
  | [], writer => ⟨none, writer, []⟩
  | item :: data, writer =>
    match E.Insert writer item (.String code) with
    | some err => ⟨some err, writer, [.Insert item (.String code)]⟩
    | none =>
      let r := insertData E code data
        ⟨writer.opts, writer.inserted ++ [(item, .String code)]⟩
      ⟨r.err, r.writer, .Insert item (.String code) :: r.calls⟩

/-- The outer loop of `write` (lines 131-141) over the entries in the order
the `range` statement yields them; `codeMap` is the set built at lines
127-130. -/
def insertEntries {ρ σ : Type} (E : Env ρ σ) (codeMap : List String) :
    List Entry → Tree → Inserted
  | [], writer => ⟨none, writer, []⟩
  | ⟨code, data⟩ :: rest, writer =>
    if !codeMap.contains code then
      insertEntries E codeMap rest writer
    else
      let r := insertData E code data writer
      match r.err with
      | some err => ⟨some err, r.writer, r.calls⟩
      | none =>
        let r' := insertEntries E codeMap rest r.writer
        ⟨r'.err, r'.writer, r.calls ++ r'.calls⟩

/-- The set `codeMap` of `write` (lines 120-130), as the list of its members:
the given codes, or every key of `dataMap` when none is given, sorted. -/
def allowedCodes {ρ σ : Type} (E : Env ρ σ) (dataMap : CodeMap) (codes : List String) :
    List String :=
  sortStrings
    (if codes.length == 0 then (E.rangeCodes dataMap).1.map (fun e => e.1) else codes)

/-- Go `write`. -/
def write {ρ σ : Type} (E : Env ρ σ) (writer : Tree) (dataMap : CodeMap)
    (output : String) (codes : List String) : Inserted :=
  let r := insertEntries E (allowedCodes E dataMap codes) (E.rangeData dataMap).1 writer
  match r.err with
  | some err => ⟨some err, r.writer, r.calls⟩
  | none =>
    match E.Create output with
    | some err => ⟨some err, r.writer, r.calls ++ [.Create output]⟩
    | none =>
      ⟨E.WriteTo r.writer output, r.writer,
        r.calls ++ [.Create output, .WriteTo output r.writer.inserted]⟩

/-! ## release -/

/-- Go `release`: the error returned, the tree (when one was created) and the
calls made on the tree library and the file system. -/
structure Released where
  err : Option Error
  writer : Option Tree
  calls : List Call

/-- Go `release`. -/
def release {ρ σ : Type} (E : Env ρ σ) (source output : String) : Released :=
  match E.fetch source with
  | .error err => ⟨some err, none, []⟩
  | .ok sourceRelease =>
    match E.download sourceRelease with
    | .error err => ⟨some err, none, []⟩
    | .ok binary =>
      let parsed := parse E.lower E.unmarshal (E.FromBytes binary)
      match parsed.err with
      | some err => ⟨some err, none, []⟩
      | none =>
        let allCodes := (E.rangeAllCodes parsed.countryMap).1.map (fun e => e.1)
        match newWriter E parsed.metadata allCodes with
        | .error err => ⟨some err, none, [.New (writerOptions parsed.metadata allCodes)]⟩
        | .ok writer =>
          let r := write E writer parsed.countryMap output []
          ⟨r.err, some r.writer, .New (writerOptions parsed.metadata allCodes) :: r.calls⟩

/-! ## Sample environments -/

/-- A `range` that yields the entries in the order the list representation
holds them. -/
def rangeStored : Ranger := fun m => ⟨m.entries, List.Perm.refl _⟩

/-- A `range` that yields the entries in ascending order of their codes. -/
def rangeSorted : Ranger := fun m =>
  ⟨m.entries.insertionSort (fun a b => a.1.toList ≤ b.1.toList), List.perm_insertionSort _ _⟩

/-- The map `unicode.ToLower` on the ASCII characters, which is all the sample
codes below are written in: `A`-`Z` become `a`-`z`. -/
def asciiLower : Char → Char := Char.toLower

/-- An environment where the image is `db`, every library and system call
succeeds, and the three `range` statements use the given orders. -/
def Env.ofDatabase {ρ : Type} (unmarshal : ρ → Enterprise → Enterprise)
    (db : Except Error (Database ρ)) (r0 r1 r2 : Ranger) : Env ρ Unit :=
  { lower := asciiLower
    fetch := fun _ => .ok ()
    download := fun _ => .ok []
    FromBytes := fun _ => db
    unmarshal := unmarshal
    New := fun _ => none
    Insert := fun _ _ _ => none
    Create := fun _ => none
    WriteTo := fun _ _ => none
    rangeAllCodes := r0
    rangeCodes := r1
    rangeData := r2 }

/-! ## Specification-side notions -/

/-- The pairs a run of `parse` decodes: none when the image does not open. -/
def decoded {ρ : Type} (unmarshal : ρ → Enterprise → Enterprise)
    (opened : Except Error (Database ρ)) : List (IPNet × Enterprise) :=
  match opened with
  | .error _ => []
  | .ok database => seen unmarshal database.entries Enterprise.zero

/-- The insertions `write` is to make: the entries whose code is allowed, in
the order given, each network of an entry paired with the entry's code. -/
def planned (codeMap : List String) (entries : List Entry) : List (IPNet × DataType) :=
  (entries.filter (fun e => codeMap.contains e.1)).flatMap
    (fun e => e.2.map (fun item => (item, DataType.String e.1)))

/-- Every `Insert` of the list succeeds when the insertions are made one after
the other, starting from `writer`. -/
def insertsSucceed {ρ σ : Type} (E : Env ρ σ) : Tree → List (IPNet × DataType) → Bool
  | _, [] => true
  | writer, (item, value) :: rest =>
    (E.Insert writer item value).isNone &&
      insertsSucceed E ⟨writer.opts, writer.inserted ++ [(item, value)]⟩ rest

/-- The log entry of an `Insert` call. -/
def insertCall (p : IPNet × DataType) : Call := .Insert p.1 p.2

/-- A loop of `Insert` calls over a flat list of pairs, stopping at the first
error: what the two nested loops of `write` amount to on `planned`. -/
def insertEach {ρ σ : Type} (E : Env ρ σ) : List (IPNet × DataType) → Tree → Inserted
  | [], writer => ⟨none, writer, []⟩
  | (item, value) :: rest, writer =>
    match E.Insert writer item value with
    | some err => ⟨some err, writer, [.Insert item value]⟩
    | none =>
      let r := insertEach E rest ⟨writer.opts, writer.inserted ++ [(item, value)]⟩
      ⟨r.err, r.writer, .Insert item value :: r.calls⟩

/-- The insertions of a run of `write`: `planned` for the set and the
iteration order that run uses. -/
def plannedBy {ρ σ : Type} (E : Env ρ σ) (dataMap : CodeMap) (codes : List String) :
    List (IPNet × DataType) :=
  planned (allowedCodes E dataMap codes) (E.rangeData dataMap).1

/-- Two networks have no address in common. -/
def Disjoint (a b : IPNet) : Prop :=
  ∀ ip, ¬ (a.Contains ip = true ∧ b.Contains ip = true)

/-! ## Sample data -/

/-- The network 1.2.3.0/24. -/
def net1 : IPNet := ⟨32, 16909056, 24⟩

/-- The network 5.6.7.0/24. -/
def net2 : IPNet := ⟨32, 84281088, 24⟩

/-- The network 9.9.9.0/24. -/
def net3 : IPNet := ⟨32, 151587072, 24⟩

/-- The network 10.0.0.0/8. -/
def net10 : IPNet := ⟨32, 167772160, 8⟩

/-- The network 10.1.0.0/16. -/
def net10_1 : IPNet := ⟨32, 167837696, 16⟩

/-- The network 10.1.2.0/24. -/
def net10_1_2 : IPNet := ⟨32, 167838208, 24⟩

/-- The address 1.2.3.1. -/
def ip1_2_3_1 : IP := ⟨32, 16909057⟩

/-- A decoded record with country "US" only. -/
def usRecord : Enterprise := ⟨⟨"US"⟩, ⟨""⟩, ⟨""⟩, ⟨""⟩⟩

/-- An image of IPv4 metadata holding the given entries, all of which decode. -/
def imageOf {ρ : Type} (entries : List (IPNet × ρ)) : Except Error (Database ρ) :=
  .ok ⟨⟨4, 24⟩, entries.map .ok, none⟩

/-- A stored record with the country key only. -/
def storedCountry (code : String) : StoredRecord := ⟨some code, none, none, none⟩

/-- A stored record with the continent key only. -/
def storedContinent (code : String) : StoredRecord := ⟨none, none, none, some code⟩

/-- The record of the fallback example as an image stores it: registered
country "DE", represented country "FR", continent "EU" and no country key. -/
def storedFallback : StoredRecord := ⟨none, some "DE", some "FR", some "EU"⟩

/-- A stored record with none of the four keys. -/
def storedEmpty : StoredRecord := ⟨none, none, none, none⟩

/-- An image whose single network, 5.6.7.0/24, carries `storedFallback`. -/
def fallbackAloneImage : Except Error (Database StoredRecord) :=
  imageOf [(net2, storedFallback)]

/-- An image in which 1.2.3.0/24 with country "US" precedes 5.6.7.0/24 with
`storedFallback`. -/
def fallbackAfterCountryImage : Except Error (Database StoredRecord) :=
  imageOf [(net1, storedCountry "US"), (net2, storedFallback)]

/-- An image whose single network, 5.6.7.0/24, carries `storedEmpty`. -/
def emptyAloneImage : Except Error (Database StoredRecord) :=
  imageOf [(net2, storedEmpty)]

/-- An image in which 1.2.3.0/24 with country "US" precedes 5.6.7.0/24 with
`storedEmpty`. -/
def emptyAfterCountryImage : Except Error (Database StoredRecord) :=
  imageOf [(net1, storedCountry "US"), (net2, storedEmpty)]

/-- An image with 1.2.3.0/24 of country "US", 5.6.7.0/24 of continent "EU"
only and 9.9.9.0/24 of country "DE", in that order. -/
def mixedImage : Except Error (Database StoredRecord) :=
  imageOf [(net1, storedCountry "US"), (net2, storedContinent "EU"),
    (net3, storedCountry "DE")]

/-- The address 5.6.7.1. -/
def ip5_6_7_1 : IP := ⟨32, 84281089⟩

/-- The image of the end-to-end scenario: 1.2.3.0/24 with country "US", then
5.6.7.0/24 with continent "EU" only. -/
def scenarioImage : Except Error (Database StoredRecord) :=
  imageOf [(net1, storedCountry "US"), (net2, storedContinent "EU")]

/-- The second network of the scenario on its own. -/
def continentImage : Except Error (Database StoredRecord) :=
  imageOf [(net2, storedContinent "EU")]

/-- An image with countries "MM", "AB", "ZA", one network each. -/
def threeCodesImage : Except Error (Database StoredRecord) :=
  imageOf [(net1, storedCountry "MM"), (net2, storedCountry "AB"), (net3, storedCountry "ZA")]

/-- The code map with keys "za", "ab", "mm", held in that order. -/
def threeCodes : CodeMap :=
  (parse asciiLower unmarshalPresent threeCodesImage).countryMap

/-- The code map "us" to 1.2.3.0/24 and "de" to 5.6.7.0/24. -/
def usDe : CodeMap :=
  ((∅ : CodeMap).insert "de" [net2]).insert "us" [net1]

/-- A code map with nested networks: "a" holds 10.0.0.0/8, "b" holds
10.1.0.0/16 and "c" holds 10.1.2.0/24. -/
def nested : CodeMap :=
  (((∅ : CodeMap).insert "a" [net10]).insert "b" [net10_1]).insert "c" [net10_1_2]

/-- An empty tree under the options of `newWriter` for IPv4 metadata. -/
def emptyTree : Tree := ⟨writerOptions ⟨4, 24⟩ [], []⟩

/-- An environment in which every call succeeds and every `range` visits the
codes in ascending order. -/
def sortedEnv : Env StoredRecord Unit :=
  Env.ofDatabase unmarshalPresent threeCodesImage rangeSorted rangeSorted rangeSorted

/-- An environment in which every call succeeds and every `range` visits the
entries in the order the map holds them. -/
def storedEnv : Env StoredRecord Unit :=
  Env.ofDatabase unmarshalPresent threeCodesImage rangeStored rangeStored rangeStored

/-- An environment on the image of the end-to-end scenario in which every
call succeeds and every `range` visits the codes in ascending order. -/
def scenarioEnv : Env StoredRecord Unit :=
  Env.ofDatabase unmarshalPresent scenarioImage rangeSorted rangeSorted rangeSorted

/-- As `sortedEnv`, but every `Insert` of 10.1.0.0/16 fails. -/
def failingEnv : Env StoredRecord Unit :=
  { sortedEnv with
    Insert := fun _ item _ => if item = net10_1 then some "insert failed" else none }

/-! ## Lemmas on parse -/

theorem CodeMap.get_insert (m : CodeMap) (code code' : String) (v : List IPNet) :
    CodeMap.get (m.insert code v) code' = if code' = code then v else m.get code' := by
  unfold CodeMap.get
  by_cases h : code' = code
  · subst h; simp
  · simp [h, AList.lookup_insert_ne h]

theorem CodeMap.get_empty (code : String) : CodeMap.get ∅ code = [] := by
  simp [CodeMap.get]

theorem parseLoop_get {ρ : Type} (lower : Char → Char)
    (unmarshal : ρ → Enterprise → Enterprise)
    (entries : List (Except Error (IPNet × ρ))) (country : Enterprise) (m : CodeMap)
    (code : String) :
    (parseLoop lower unmarshal entries country m).1.get code =
      m.get code ++ ((seen unmarshal entries country).filter
        (fun p => resolveCode lower p.2 = some code)).map (fun p => p.1) := by
  induction entries generalizing country m with
  | nil => simp [parseLoop, seen]
  | cons e rest ih =>
    cases e with
    | error err => simp [parseLoop, seen]
    | ok p =>
      obtain ⟨ipNet, r⟩ := p
      simp only [parseLoop, seen]
      cases hres : resolveCode lower (unmarshal r country) with
      | none => simp [ih, List.filter_cons, hres]
      | some c =>
        simp only [ih, CodeMap.get_insert, List.filter_cons, hres]
        by_cases hc : code = c
        · subst hc; simp
        · have hc' : ¬ c = code := fun h => hc h.symm
          simp [hc, hc']

theorem parse_countryMap {ρ : Type} (lower : Char → Char)
    (unmarshal : ρ → Enterprise → Enterprise)
    (opened : Except Error (Database ρ)) :
    (parse lower unmarshal opened).countryMap =
      match opened with
      | .error _ => ∅
      | .ok database => (parseLoop lower unmarshal database.entries Enterprise.zero ∅).1 := by
  cases opened with
  | error err => rfl
  | ok database =>
    simp only [parse]
    rcases h : parseLoop lower unmarshal database.entries Enterprise.zero ∅ with ⟨m, _ | err⟩ <;> rfl

theorem parse_get {ρ : Type} (lower : Char → Char)
    (unmarshal : ρ → Enterprise → Enterprise)
    (opened : Except Error (Database ρ)) (code : String) :
    (parse lower unmarshal opened).countryMap.get code =
      ((decoded unmarshal opened).filter
        (fun p => resolveCode lower p.2 = some code)).map (fun p => p.1) := by
  rw [parse_countryMap]
  cases opened with
  | error err => simp [decoded, CodeMap.get_empty]
  | ok database => simp [decoded, parseLoop_get, CodeMap.get_empty]

/-! ## Lemmas on write -/

theorem insertData_eq_insertEach {ρ σ : Type} (E : Env ρ σ) (code : String)
    (data : List IPNet) (writer : Tree) :
    insertData E code data writer =
      insertEach E (data.map (fun item => (item, DataType.String code))) writer := by
  induction data generalizing writer with
  | nil => rfl
  | cons item data ih =>
    simp only [insertData, List.map_cons, insertEach]
    cases E.Insert writer item (.String code) with
    | some err => rfl
    | none => simp only [ih]

theorem insertEach_append {ρ σ : Type} (E : Env ρ σ) (l₁ l₂ : List (IPNet × DataType))
    (writer : Tree) :
    insertEach E (l₁ ++ l₂) writer =
      match (insertEach E l₁ writer).err with
      | some err => ⟨some err, (insertEach E l₁ writer).writer, (insertEach E l₁ writer).calls⟩
      | none =>
        ⟨(insertEach E l₂ (insertEach E l₁ writer).writer).err,
          (insertEach E l₂ (insertEach E l₁ writer).writer).writer,
          (insertEach E l₁ writer).calls ++
            (insertEach E l₂ (insertEach E l₁ writer).writer).calls⟩ := by
  induction l₁ generalizing writer with
  | nil => simp [insertEach]
  | cons p l₁ ih =>
    obtain ⟨item, value⟩ := p
    cases hi : E.Insert writer item value with
    | some err => simp [insertEach, hi]
    | none =>
      have step : ∀ l, insertEach E ((item, value) :: l) writer =
          ⟨(insertEach E l ⟨writer.opts, writer.inserted ++ [(item, value)]⟩).err,
            (insertEach E l ⟨writer.opts, writer.inserted ++ [(item, value)]⟩).writer,
            .Insert item value ::
              (insertEach E l ⟨writer.opts, writer.inserted ++ [(item, value)]⟩).calls⟩ := by
        intro l; simp [insertEach, hi]
      rw [List.cons_append, step, step, ih]
      cases h : (insertEach E l₁ ⟨writer.opts, writer.inserted ++ [(item, value)]⟩).err <;>
        simp [h]

theorem insertEntries_eq_insertEach {ρ σ : Type} (E : Env ρ σ) (codeMap : List String)
    (entries : List Entry) (writer : Tree) :
    insertEntries E codeMap entries writer = insertEach E (planned codeMap entries) writer := by
  induction entries generalizing writer with
  | nil => rfl
  | cons e rest ih =>
    obtain ⟨code, data⟩ := e
    by_cases h : codeMap.contains code = true
    · have hmem : code ∈ codeMap := by simpa using h
      have hp : planned codeMap (⟨code, data⟩ :: rest) =
          data.map (fun item => (item, DataType.String code)) ++ planned codeMap rest := by
        simp [planned, List.filter_cons, hmem]
      rw [hp, insertEach_append]
      simp only [insertEntries, h, Bool.not_true, Bool.false_eq_true, if_false,
        insertData_eq_insertEach, ih]
    · have hmem : code ∉ codeMap := by simpa using h
      have hp : planned codeMap (⟨code, data⟩ :: rest) = planned codeMap rest := by
        simp [planned, List.filter_cons, hmem]
      rw [hp]
      simp only [insertEntries, h, Bool.not_false, if_true, ih]

theorem insertEach_of_succeed {ρ σ : Type} (E : Env ρ σ) (l : List (IPNet × DataType))
    (writer : Tree) (h : insertsSucceed E writer l) :
    insertEach E l writer =
      ⟨none, ⟨writer.opts, writer.inserted ++ l⟩, l.map insertCall⟩ := by
  induction l generalizing writer with
  | nil => simp [insertEach]
  | cons p l ih =>
    obtain ⟨item, value⟩ := p
    simp only [insertsSucceed, Bool.and_eq_true, Option.isNone_iff_eq_none] at h
    obtain ⟨h1, h2⟩ := h
    simp only [insertEach, h1, ih _ h2]
    simp [insertCall]

theorem insertsSucceed_of_err_none {ρ σ : Type} (E : Env ρ σ) (l : List (IPNet × DataType))
    (writer : Tree) (h : (insertEach E l writer).err = none) :
    insertsSucceed E writer l = true := by
  induction l generalizing writer with
  | nil => rfl
  | cons p l ih =>
    obtain ⟨item, value⟩ := p
    simp only [insertEach] at h
    cases h1 : E.Insert writer item value with
    | some err => simp [h1] at h
    | none =>
      simp only [h1] at h
      simp only [insertsSucceed, Bool.and_eq_true, Option.isNone_iff_eq_none]
      exact ⟨h1, ih _ h⟩

theorem insertEach_of_fail {ρ σ : Type} (E : Env ρ σ) (pre post : List (IPNet × DataType))
    (item : IPNet) (value : DataType) (err : Error) (writer : Tree)
    (hpre : insertsSucceed E writer pre)
    (hfail : E.Insert ⟨writer.opts, writer.inserted ++ pre⟩ item value = some err) :
    insertEach E (pre ++ (item, value) :: post) writer =
      ⟨some err, ⟨writer.opts, writer.inserted ++ pre⟩,
        (pre ++ [(item, value)]).map insertCall⟩ := by
  rw [insertEach_append, insertEach_of_succeed E pre writer hpre]
  simp [insertEach, hfail, insertCall]

theorem mem_planned (codeMap : List String) (entries : List Entry) (item : IPNet)
    (value : DataType) :
    (item, value) ∈ planned codeMap entries ↔
      ∃ code data, (⟨code, data⟩ : Entry) ∈ entries ∧ code ∈ codeMap ∧ item ∈ data ∧
        value = .String code := by
  simp only [planned, List.mem_flatMap, List.mem_filter, List.mem_map, Prod.mk.injEq]
  constructor
  · rintro ⟨⟨code, data⟩, ⟨he, hc⟩, n, hn, rfl, rfl⟩
    exact ⟨code, data, he, by simpa using hc, hn, rfl⟩
  · rintro ⟨code, data, he, hc, hn, rfl⟩
    exact ⟨⟨code, data⟩, ⟨he, by simpa using hc⟩, item, hn, rfl, rfl⟩

theorem mem_entries_iff_get (m : CodeMap) (item : IPNet) (code : String) :
    (∃ data, (⟨code, data⟩ : Entry) ∈ m.entries ∧ item ∈ data) ↔ item ∈ m.get code := by
  unfold CodeMap.get
  constructor
  · rintro ⟨data, he, hn⟩
    have : m.lookup code = some data := AList.mem_lookup_iff.mpr he
    simpa [this] using hn
  · intro h
    cases hl : m.lookup code with
    | none => simp [hl] at h
    | some data =>
      simp only [hl, Option.getD_some] at h
      exact ⟨data, AList.mem_lookup_iff.mp hl, h⟩

theorem mem_sortStrings (codes : List String) (code : String) :
    code ∈ sortStrings codes ↔ code ∈ codes :=
  (List.perm_insertionSort _ codes).mem_iff

theorem mem_allowedCodes {ρ σ : Type} (E : Env ρ σ) (dataMap : CodeMap) (codes : List String)
    (code : String) :
    code ∈ allowedCodes E dataMap codes ↔
      (codes = [] ∧ code ∈ dataMap) ∨ (codes ≠ [] ∧ code ∈ codes) := by
  unfold allowedCodes
  rw [mem_sortStrings]
  cases codes with
  | nil =>
    have hperm := (E.rangeCodes dataMap).2
    have : code ∈ (E.rangeCodes dataMap).1.map (fun e => e.1) ↔ code ∈ dataMap := by
      have hk : code ∈ dataMap ↔ code ∈ dataMap.entries.map (fun e => e.1) := Iff.rfl
      rw [hk]
      exact (hperm.map (fun e => e.1)).mem_iff
    simpa using this
  | cons c cs => simp

theorem mem_plannedBy {ρ σ : Type} (E : Env ρ σ) (dataMap : CodeMap) (codes : List String)
    (item : IPNet) (value : DataType) :
    (item, value) ∈ plannedBy E dataMap codes ↔
      ∃ code, value = .String code ∧ (codes = [] ∨ code ∈ codes) ∧
        item ∈ dataMap.get code := by
  unfold plannedBy
  rw [mem_planned]
  have hperm := (E.rangeData dataMap).2
  constructor
  · rintro ⟨code, data, he, hc, hn, rfl⟩
    refine ⟨code, rfl, ?_, (mem_entries_iff_get dataMap item code).mp
      ⟨data, hperm.mem_iff.mp he, hn⟩⟩
    rcases (mem_allowedCodes E dataMap codes code).mp hc with h | h
    · exact Or.inl h.1
    · exact Or.inr h.2
  · rintro ⟨code, rfl, hc, hn⟩
    obtain ⟨data, he, hn'⟩ := (mem_entries_iff_get dataMap item code).mpr hn
    refine ⟨code, data, hperm.mem_iff.mpr he, ?_, hn', rfl⟩
    rw [mem_allowedCodes]
    by_cases hnil : codes = []
    · exact Or.inl ⟨hnil, AList.mem_keys.mp (List.mem_keys_of_mem he)⟩
    · rcases hc with h | h
      · exact absurd h hnil
      · exact Or.inr ⟨hnil, h⟩

theorem write_loop {ρ σ : Type} (E : Env ρ σ) (writer : Tree) (dataMap : CodeMap)
    (codes : List String) :
    insertEntries E (allowedCodes E dataMap codes) (E.rangeData dataMap).1 writer =
      insertEach E (plannedBy E dataMap codes) writer :=
  insertEntries_eq_insertEach _ _ _ _

theorem write_of_err_none {ρ σ : Type} (E : Env ρ σ) (writer : Tree) (dataMap : CodeMap)
    (output : String) (codes : List String)
    (hok : (write E writer dataMap output codes).err = none) :
    insertsSucceed E writer (plannedBy E dataMap codes) ∧
      (write E writer dataMap output codes).writer =
        ⟨writer.opts, writer.inserted ++ plannedBy E dataMap codes⟩ ∧
      (write E writer dataMap output codes).calls =
        (plannedBy E dataMap codes).map insertCall ++
          [.Create output, .WriteTo output (writer.inserted ++ plannedBy E dataMap codes)] := by
  have hsucc : insertsSucceed E writer (plannedBy E dataMap codes) := by
    apply insertsSucceed_of_err_none
    rw [← write_loop]
    unfold write at hok
    cases h : (insertEntries E (allowedCodes E dataMap codes) (E.rangeData dataMap).1 writer).err with
    | none => rfl
    | some err => simp [h] at hok
  refine ⟨hsucc, ?_⟩
  unfold write at hok ⊢
  rw [write_loop, insertEach_of_succeed E _ writer hsucc] at hok ⊢
  cases hc : E.Create output with
  | some err => simp [hc] at hok
  | none => simp [hc]

theorem insertEach_calls_mem {ρ σ : Type} (E : Env ρ σ) (l : List (IPNet × DataType))
    (writer : Tree) (c : Call) (h : c ∈ (insertEach E l writer).calls) :
    ∃ p ∈ l, c = insertCall p := by
  induction l generalizing writer with
  | nil => simp [insertEach] at h
  | cons p l ih =>
    obtain ⟨item, value⟩ := p
    simp only [insertEach] at h
    cases hi : E.Insert writer item value with
    | some err =>
      simp only [hi, List.mem_singleton] at h
      exact ⟨(item, value), List.mem_cons_self _ _, h⟩
    | none =>
      simp only [hi, List.mem_cons] at h
      rcases h with h | h
      · exact ⟨(item, value), List.mem_cons_self _ _, h⟩
      · obtain ⟨q, hq, hc⟩ := ih _ h
        exact ⟨q, List.mem_cons_of_mem _ hq, hc⟩

/-! ## The tree builder (claims C4, C5, C6, C7, C8) -/

theorem lookup_of_unique_value (opts : Options) (l : List (IPNet × DataType))
    (ip : IP) (value : DataType)
    (hex : ∃ x ∈ l, x.1.Contains ip = true)
    (hall : ∀ x ∈ l, x.1.Contains ip = true → x.2 = value) :
    Tree.Lookup ⟨opts, l⟩ ip = some value := by
  unfold Tree.Lookup
  have h2 : (l.reverse.find? (fun e => e.1.Contains ip)).isSome = true := by
    rw [List.find?_isSome]
    obtain ⟨x, hx, hc⟩ := hex
    exact ⟨x, List.mem_reverse.mpr hx, hc⟩
  cases h3 : l.reverse.find? (fun e => e.1.Contains ip) with
  | none => simp [h3] at h2
  | some y =>
    have hy : y ∈ l := List.mem_reverse.mp (List.mem_of_find?_eq_some h3)
    have hc : y.1.Contains ip = true :=
      @List.find?_some _ (fun e : IPNet × DataType => e.1.Contains ip) y l.reverse h3
    simp [hall y hy hc]

theorem insertEach_opts {ρ σ : Type} (E : Env ρ σ) (l : List (IPNet × DataType))
    (writer : Tree) : (insertEach E l writer).writer.opts = writer.opts := by
  induction l generalizing writer with
  | nil => rfl
  | cons p l ih =>
    obtain ⟨item, value⟩ := p
    simp only [insertEach]
    cases E.Insert writer item value with
    | some err => rfl
    | none => exact ih _

theorem write_opts {ρ σ : Type} (E : Env ρ σ) (writer : Tree) (dataMap : CodeMap)
    (output : String) (codes : List String) :
    (write E writer dataMap output codes).writer.opts = writer.opts := by
  have h := insertEach_opts E (plannedBy E dataMap codes) writer
  unfold write
  rw [write_loop]
  cases he : (insertEach E (plannedBy E dataMap codes) writer).err with
  | some err => simpa [he] using h
  | none =>
    cases hc : E.Create output with
    | some err => simpa [he, hc] using h
    | none => simpa [he, hc] using h

theorem insert_mem_calls_iff {ρ σ : Type} (E : Env ρ σ) (writer : Tree) (dataMap : CodeMap)
    (output : String) (codes : List String)
    (hok : (write E writer dataMap output codes).err = none) (item : IPNet)
    (value : DataType) :
    Call.Insert item value ∈ (write E writer dataMap output codes).calls ↔
      (item, value) ∈ plannedBy E dataMap codes := by
  rw [(write_of_err_none E writer dataMap output codes hok).2.2]
  simp only [List.mem_append, List.mem_map, insertCall, List.mem_cons, List.mem_singleton,
    Call.Insert.injEq, reduceCtorEq, or_self, or_false, List.not_mem_nil]
  constructor
  · rintro ⟨⟨a, b⟩, hp, rfl, rfl⟩
    exact hp
  · intro h
    exact ⟨(item, value), h, rfl, rfl⟩

/-- C4: on a run of `write` that returns no error, with a non-empty allow-list
`Insert` is called with a network and a code exactly when the code is in the
allow-list and the network is in that code's list of the map; with an empty
allow-list exactly when the network is in that code's list; every value passed
to `Insert` is the string of the code under which the network is listed; and
the tree gains exactly the pairs `Insert` was called with. -/
theorem write_inserts_exactly_allowed {ρ σ : Type} (E : Env ρ σ) (writer : Tree)
    (dataMap : CodeMap) (output : String) (codes : List String)
    (hok : (write E writer dataMap output codes).err = none) :
    (codes ≠ [] → ∀ item code,
        Call.Insert item (.String code) ∈ (write E writer dataMap output codes).calls ↔
          code ∈ codes ∧ item ∈ dataMap.get code) ∧
      (codes = [] → ∀ item code,
        Call.Insert item (.String code) ∈ (write E writer dataMap output codes).calls ↔
          item ∈ dataMap.get code) ∧
      (∀ item value,
        Call.Insert item value ∈ (write E writer dataMap output codes).calls →
          ∃ code, value = .String code ∧ item ∈ dataMap.get code) ∧
      (∀ item value,
        (item, value) ∈ (write E writer dataMap output codes).writer.inserted ↔
          (item, value) ∈ writer.inserted ∨
            Call.Insert item value ∈ (write E writer dataMap output codes).calls) := by
  refine ⟨?_, ?_, ?_, ?_⟩
  · intro hne item code
    rw [insert_mem_calls_iff E writer dataMap output codes hok, mem_plannedBy]
    constructor
    · rintro ⟨c, hc, hallow, hmem⟩
      cases hc
      rcases hallow with h | h
      · exact absurd h hne
      · exact ⟨h, hmem⟩
    · rintro ⟨h, hmem⟩
      exact ⟨code, rfl, Or.inr h, hmem⟩
  · intro hnil item code
    rw [insert_mem_calls_iff E writer dataMap output codes hok, mem_plannedBy]
    constructor
    · rintro ⟨c, hc, _, hmem⟩
      cases hc
      exact hmem
    · intro hmem
      exact ⟨code, rfl, Or.inl hnil, hmem⟩
  · intro item value h
    rw [insert_mem_calls_iff E writer dataMap output codes hok, mem_plannedBy] at h
    obtain ⟨c, hc, _, hmem⟩ := h
    exact ⟨c, hc, hmem⟩
  · intro item value
    rw [insert_mem_calls_iff E writer dataMap output codes hok,
      (write_of_err_none E writer dataMap output codes hok).2.1]
    simp

theorem write_inserts_exactly_allowed_witness :
    (write sortedEnv emptyTree usDe "geoip-lite.db" ["us"]).err = none ∧
      Call.Insert net1 (.String "us") ∈
        (write sortedEnv emptyTree usDe "geoip-lite.db" ["us"]).calls ∧
      Call.Insert net2 (.String "de") ∉
        (write sortedEnv emptyTree usDe "geoip-lite.db" ["us"]).calls :=
  ⟨by decide,
    ((write_inserts_exactly_allowed sortedEnv emptyTree usDe "geoip-lite.db" ["us"]
      (by decide)).1 (by decide) net1 "us").mpr ⟨by decide, by decide⟩,
    fun h =>
      absurd (((write_inserts_exactly_allowed sortedEnv emptyTree usDe "geoip-lite.db" ["us"]
        (by decide)).1 (by decide) net2 "de").mp h).1 (by decide)⟩

/-- C5, evaluated: for the map with keys "za", "ab", "mm" and an empty
allow-list, `write` collects and sorts the codes into ab, mm, za (lines
120-126), but a run whose `range` over the map at line 131 yields za, ab, mm
calls `Insert` in that order, not in the sorted one; a run on the same map
whose `range` yields the codes in ascending order calls `Insert` in another
order, so the sequence of calls is not fixed by the map. -/
theorem write_inserts_not_in_ascending_order :
    (write storedEnv emptyTree threeCodes "geoip.db" []).calls.take 3 =
        [.Insert net3 (.String "za"), .Insert net2 (.String "ab"),
          .Insert net1 (.String "mm")] ∧
      (write sortedEnv emptyTree threeCodes "geoip.db" []).calls.take 3 =
        [.Insert net2 (.String "ab"), .Insert net1 (.String "mm"),
          .Insert net3 (.String "za")] ∧
      (write storedEnv emptyTree threeCodes "geoip.db" []).calls ≠
        (write sortedEnv emptyTree threeCodes "geoip.db" []).calls ∧
      allowedCodes storedEnv threeCodes [] = ["ab", "mm", "za"] := by
  decide

theorem newWriter_inserted {ρ σ : Type} (E : Env ρ σ) (metadata : Metadata)
    (codes : List String) (writer : Tree) (h : newWriter E metadata codes = .ok writer) :
    writer = ⟨writerOptions metadata codes, []⟩ := by
  unfold newWriter at h
  cases hn : E.New (writerOptions metadata codes) with
  | some err => simp [hn] at h
  | none =>
    simp only [hn, Except.ok.injEq] at h
    exact h.symm

theorem disjoint_net1_net2 : Disjoint net1 net2 := by
  intro ip h
  simp only [IPNet.Contains, net1, net2, Bool.and_eq_true, beq_iff_eq] at h
  omega

/-- C7: when the decoded networks are pairwise disjoint, `newWriter` returns a
tree and `write` with an empty allow-list returns no error on the map `parse`
built, the tree resolves every address of every decoded network whose record
has a non-empty country code to the lowercase form of that country code. -/
theorem round_trip_country_lookup {ρ σ : Type} (E : Env ρ σ)
    (opened : Except Error (Database ρ)) (codes : List String) (writer : Tree)
    (output : String)
    (hnew : newWriter E (parse E.lower E.unmarshal opened).metadata codes = .ok writer)
    (hwrite : (write E writer (parse E.lower E.unmarshal opened).countryMap output []).err = none)
    (hleaves : (decoded E.unmarshal opened).Pairwise (fun p q => Disjoint p.1 q.1))
    (ipNet : IPNet) (country : Enterprise)
    (hdec : (ipNet, country) ∈ decoded E.unmarshal opened)
    (hcountry : country.Country.IsoCode ≠ "")
    (ip : IP) (hip : ipNet.Contains ip = true) :
    (write E writer (parse E.lower E.unmarshal opened).countryMap output []).writer.Lookup ip =
      some (.String (ToLower E.lower country.Country.IsoCode)) := by
  have hres : resolveCode E.lower country = some (ToLower E.lower country.Country.IsoCode) := by
    simp [resolveCode, hcountry]
  have hsym : Symmetric (fun p q : IPNet × Enterprise => Disjoint p.1 q.1) := by
    intro p q h ip' hc
    exact h ip' ⟨hc.2, hc.1⟩
  rw [(write_of_err_none E writer _ output [] hwrite).2.1,
    newWriter_inserted E _ codes writer hnew]
  simp only [List.nil_append]
  apply lookup_of_unique_value
  · refine ⟨(ipNet, .String (ToLower E.lower country.Country.IsoCode)), ?_, hip⟩
    rw [mem_plannedBy]
    refine ⟨_, rfl, Or.inl rfl, ?_⟩
    rw [parse_get]
    exact List.mem_map.mpr
      ⟨(ipNet, country), List.mem_filter.mpr ⟨hdec, by simpa using hres⟩, rfl⟩
  · rintro ⟨n, v⟩ hx hc
    obtain ⟨c, rfl, _, hn⟩ := (mem_plannedBy E _ [] n _).mp hx
    rw [parse_get] at hn
    obtain ⟨q, hq, hq1⟩ := List.mem_map.mp hn
    obtain ⟨hqd, hqres⟩ := List.mem_filter.mp hq
    simp only [decide_eq_true_eq] at hqres
    by_cases hqp : q = (ipNet, country)
    · subst hqp
      rw [hres] at hqres
      simp only [Option.some.injEq] at hqres
      simp [hqres]
    · exfalso
      have hd : Disjoint q.1 ipNet := hleaves.forall hsym hqd hdec hqp
      apply hd ip
      exact ⟨hq1 ▸ hc, hip⟩

theorem round_trip_country_lookup_witness :
    (net1, usRecord) ∈ decoded scenarioEnv.unmarshal scenarioImage ∧
      net1.Contains ip1_2_3_1 = true ∧
      (write scenarioEnv emptyTree (parse scenarioEnv.lower scenarioEnv.unmarshal scenarioImage).countryMap
        "geoip.db" []).writer.Lookup ip1_2_3_1 = some (.String "us") :=
  ⟨by decide, by decide,
    round_trip_country_lookup scenarioEnv scenarioImage [] emptyTree "geoip.db" rfl
      (by decide)
      (by
        have h : decoded scenarioEnv.unmarshal scenarioImage =
            [(net1, usRecord), (net2, ⟨⟨"US"⟩, ⟨""⟩, ⟨""⟩, ⟨"EU"⟩⟩)] := by decide
        rw [h]
        exact List.pairwise_pair.mpr disjoint_net1_net2)
      net1 usRecord (by decide) (by decide) ip1_2_3_1 (by decide)⟩

/-- C8 as stated fails: for the image with codes "mm", "ab", "za", a run of
`release` whose `range` at line 165 yields za, ab, mm passes exactly that list
to `mmdbwriter.New` as `Languages`, which is not ascending, although `write`
sorts its own list into ab, mm, za; a run on the same image whose `range`
yields the codes in ascending order passes ab, mm, za. -/
theorem release_languages_not_ascending :
    (release storedEnv "Chocolate4U/Iran-v2ray-rules" "geoip.db").calls.head? =
        some (.New (writerOptions ⟨4, 24⟩ ["za", "ab", "mm"])) ∧
      (release sortedEnv "Chocolate4U/Iran-v2ray-rules" "geoip.db").calls.head? =
        some (.New (writerOptions ⟨4, 24⟩ ["ab", "mm", "za"])) ∧
      (parse storedEnv.lower storedEnv.unmarshal (storedEnv.FromBytes [])).countryMap =
        (parse sortedEnv.lower sortedEnv.unmarshal (sortedEnv.FromBytes [])).countryMap ∧
      allowedCodes storedEnv (parse storedEnv.lower storedEnv.unmarshal (storedEnv.FromBytes [])).countryMap [] =
        ["ab", "mm", "za"] := by
  refine ⟨by decide, by decide, rfl, by decide⟩

/-- C8, amended: in a run of `release` in which fetching, downloading and
`parse` succeed, the `Languages` option passed to `mmdbwriter.New`, which is
the one the tree carries, is the list of the codes of the map in the order in
which the `range` at line 165 yields them: every code of the map, each once. -/
theorem release_languages_follow_range_order {ρ σ : Type} (E : Env ρ σ)
    (source output : String) (sourceRelease : σ) (binary : List Nat)
    (hfetch : E.fetch source = .ok sourceRelease)
    (hdownload : E.download sourceRelease = .ok binary)
    (hparse : (parse E.lower E.unmarshal (E.FromBytes binary)).err = none) :
    (release E source output).calls.head? =
        some (.New (writerOptions (parse E.lower E.unmarshal (E.FromBytes binary)).metadata
          ((E.rangeAllCodes (parse E.lower E.unmarshal (E.FromBytes binary)).countryMap).1.map
            (fun e => e.1)))) ∧
      (∀ tree, (release E source output).writer = some tree →
        tree.opts.Languages =
          (E.rangeAllCodes (parse E.lower E.unmarshal (E.FromBytes binary)).countryMap).1.map
            (fun e => e.1)) ∧
      ((E.rangeAllCodes (parse E.lower E.unmarshal (E.FromBytes binary)).countryMap).1.map
          (fun e => e.1)).Perm (parse E.lower E.unmarshal (E.FromBytes binary)).countryMap.keys ∧
      ((E.rangeAllCodes (parse E.lower E.unmarshal (E.FromBytes binary)).countryMap).1.map
          (fun e => e.1)).Nodup := by
  have hperm := (E.rangeAllCodes (parse E.lower E.unmarshal (E.FromBytes binary)).countryMap).2
  have hkeys : ((E.rangeAllCodes (parse E.lower E.unmarshal (E.FromBytes binary)).countryMap).1.map
      (fun e => e.1)).Perm (parse E.lower E.unmarshal (E.FromBytes binary)).countryMap.keys :=
    hperm.map (fun e => e.1)
  refine ⟨?_, ?_, hkeys, hkeys.nodup_iff.mpr (AList.keys_nodup _)⟩
  · simp only [release, hfetch, hdownload, hparse]
    cases hn : newWriter E (parse E.lower E.unmarshal (E.FromBytes binary)).metadata
        ((E.rangeAllCodes (parse E.lower E.unmarshal (E.FromBytes binary)).countryMap).1.map
          (fun e => e.1)) <;> rfl
  · intro tree htree
    simp only [release, hfetch, hdownload, hparse] at htree
    cases hn : newWriter E (parse E.lower E.unmarshal (E.FromBytes binary)).metadata
        ((E.rangeAllCodes (parse E.lower E.unmarshal (E.FromBytes binary)).countryMap).1.map
          (fun e => e.1)) with
    | error err => simp [hn] at htree
    | ok writer =>
      simp only [hn, Option.some.injEq] at htree
      rw [← htree, write_opts, newWriter_inserted E _ _ writer hn]
      rfl

theorem release_languages_follow_range_order_witness :
    (release storedEnv "Chocolate4U/Iran-v2ray-rules" "geoip.db").calls.head? =
        some (.New (writerOptions ⟨4, 24⟩ ["za", "ab", "mm"])) ∧
      ["za", "ab", "mm"].Perm
        (parse storedEnv.lower storedEnv.unmarshal (storedEnv.FromBytes [])).countryMap.keys :=
  ⟨(release_languages_follow_range_order storedEnv "Chocolate4U/Iran-v2ray-rules"
      "geoip.db" () [] rfl rfl (by decide)).1,
    (release_languages_follow_range_order storedEnv "Chocolate4U/Iran-v2ray-rules"
      "geoip.db" () [] rfl rfl (by decide)).2.2.1⟩

/-! ## Failure (claim C9) -/

theorem parseLoop_all_ok {ρ : Type} (lower : Char → Char)
    (unmarshal : ρ → Enterprise → Enterprise)
    (items : List (IPNet × ρ)) (country : Enterprise) (m : CodeMap) :
    (parseLoop lower unmarshal (items.map .ok) country m).2 = none := by
  induction items generalizing country m with
  | nil => rfl
  | cons p items ih =>
    obtain ⟨ipNet, r⟩ := p
    simp only [List.map_cons, parseLoop]
    cases resolveCode lower (unmarshal r country) <;> exact ih _ _

theorem parseLoop_first_error {ρ : Type} (lower : Char → Char)
    (unmarshal : ρ → Enterprise → Enterprise)
    (items : List (IPNet × ρ)) (err : Error) (rest : List (Except Error (IPNet × ρ)))
    (country : Enterprise) (m : CodeMap) :
    (parseLoop lower unmarshal (items.map .ok ++ .error err :: rest) country m).2 = some err := by
  induction items generalizing country m with
  | nil => rfl
  | cons p items ih =>
    obtain ⟨ipNet, r⟩ := p
    simp only [List.map_cons, List.cons_append, parseLoop]
    cases resolveCode lower (unmarshal r country) <;> exact ih _ _

theorem parse_err {ρ : Type} (lower : Char → Char)
    (unmarshal : ρ → Enterprise → Enterprise)
    (database : Database ρ) :
    (parse lower unmarshal (.ok database)).err =
      match (parseLoop lower unmarshal database.entries Enterprise.zero ∅).2 with
      | some err => some err
      | none => database.iterErr := by
  simp only [parse]
  rcases h : parseLoop lower unmarshal database.entries Enterprise.zero ∅ with ⟨m, _ | err⟩ <;> rfl

/-- C9: `parse` returns the error of a failed open, of the first network that
fails to decode, and of the iterator; `release` then returns that error with
no tree and without any call to `mmdbwriter.New`, `Insert`, `os.Create` or
`WriteTo`.  In `write`, when the insertions before some pair succeed and the
`Insert` of that pair fails, the result is exactly that error, the tree holds
the earlier pairs only, and the calls made are those `Insert` calls and nothing
else; and whenever the log of `write` holds a `Create`, every planned `Insert`
succeeded and precedes it. -/
theorem abort_on_first_failure {ρ σ : Type} (E : Env ρ σ) :
    (∀ err, (parse E.lower E.unmarshal (.error err)).err = some err) ∧
      (∀ metadata (items : List (IPNet × ρ)) err rest iterErr,
        (parse E.lower E.unmarshal
          (.ok ⟨metadata, items.map .ok ++ .error err :: rest, iterErr⟩)).err = some err) ∧
      (∀ metadata (items : List (IPNet × ρ)) iterErr,
        (parse E.lower E.unmarshal (.ok ⟨metadata, items.map .ok, iterErr⟩)).err = iterErr) ∧
      (∀ source output sourceRelease binary err,
        E.fetch source = .ok sourceRelease → E.download sourceRelease = .ok binary →
        (parse E.lower E.unmarshal (E.FromBytes binary)).err = some err →
          release E source output = ⟨some err, none, []⟩) ∧
      (∀ writer dataMap output codes pre item value post err,
        plannedBy E dataMap codes = pre ++ (item, value) :: post →
        insertsSucceed E writer pre →
        E.Insert ⟨writer.opts, writer.inserted ++ pre⟩ item value = some err →
          write E writer dataMap output codes =
            ⟨some err, ⟨writer.opts, writer.inserted ++ pre⟩,
              (pre ++ [(item, value)]).map insertCall⟩) ∧
      (∀ writer dataMap output codes path,
        Call.Create path ∈ (write E writer dataMap output codes).calls →
          insertsSucceed E writer (plannedBy E dataMap codes) ∧
            ∃ rest, (write E writer dataMap output codes).calls =
              (plannedBy E dataMap codes).map insertCall ++ .Create path :: rest) := by
  refine ⟨fun _ => rfl, ?_, ?_, ?_, ?_, ?_⟩
  · intro metadata items err rest iterErr
    rw [parse_err]
    simp only [parseLoop_first_error]
  · intro metadata items iterErr
    rw [parse_err]
    simp only [parseLoop_all_ok]
  · intro source output sourceRelease binary err hf hd hp
    simp only [release, hf, hd, hp]
  · intro writer dataMap output codes pre item value post err hplan hpre hfail
    unfold write
    rw [write_loop, hplan, insertEach_of_fail E pre post item value err writer hpre hfail]
  · intro writer dataMap output codes path hmem
    have hloop : (insertEach E (plannedBy E dataMap codes) writer).err = none := by
      cases he : (insertEach E (plannedBy E dataMap codes) writer).err with
      | none => rfl
      | some err =>
        exfalso
        unfold write at hmem
        rw [write_loop] at hmem
        simp only [he] at hmem
        obtain ⟨q, _, hq⟩ := insertEach_calls_mem E _ _ _ hmem
        simp [insertCall] at hq
    have hsucc := insertsSucceed_of_err_none E _ writer hloop
    refine ⟨hsucc, ?_⟩
    unfold write at hmem ⊢
    rw [write_loop, insertEach_of_succeed E _ writer hsucc] at hmem ⊢
    cases hc : E.Create output with
    | some err =>
      simp only [hc, List.mem_append, List.mem_map, insertCall, List.mem_singleton,
        Call.Create.injEq, reduceCtorEq, and_false, exists_false, false_or] at hmem
      subst hmem
      exact ⟨[], by simp [hc]⟩
    | none =>
      simp only [hc, List.mem_append, List.mem_map, insertCall, List.mem_cons,
        List.mem_singleton, Call.Create.injEq, reduceCtorEq, and_false, exists_false,
        false_or, or_false, List.not_mem_nil] at hmem
      subst hmem
      exact ⟨[.WriteTo path (writer.inserted ++ plannedBy E dataMap codes)], by simp [hc]⟩

theorem abort_on_first_failure_witness :
    plannedBy failingEnv nested [] =
        [(net10, .String "a"), (net10_1, .String "b"), (net10_1_2, .String "c")] ∧
      write failingEnv emptyTree nested "geoip.db" [] =
        ⟨some "insert failed", ⟨emptyTree.opts, [(net10, .String "a")]⟩,
          [.Insert net10 (.String "a"), .Insert net10_1 (.String "b")]⟩ :=
  ⟨by decide,
    (abort_on_first_failure failingEnv).2.2.2.2.1 emptyTree nested "geoip.db" []
      [(net10, .String "a")] net10_1 (.String "b") [(net10_1_2, .String "c")]
      "insert failed" (by decide) (by decide) rfl⟩

/-! ## The record variable (claims C1, C2, C3, C10)

`var country geoip2.Enterprise` is declared once, at line 82, before the loop,
and `networks.Network(&country)` decodes every record into it.  The theorems
of this section run `parse` with `unmarshalPresent`, the decoder that assigns
the fields whose keys the stored record holds and leaves the others as the
previous record set them. -/

/-- C1, evaluated: the record with registered country "DE", represented
country "FR", continent "EU" and no country resolves to "de", the lowercase
form of its first non-empty field, when it is decoded first; decoded after a
record with country "US" its network is filed under "us", and no list of "de"
exists. -/
theorem parse_skips_fallback_after_country :
    (parse asciiLower unmarshalPresent fallbackAloneImage).countryMap.entries =
        [⟨"de", [net2]⟩] ∧
      (parse asciiLower unmarshalPresent fallbackAfterCountryImage).countryMap.entries =
        [⟨"us", [net1, net2]⟩] ∧
      (parse asciiLower unmarshalPresent fallbackAfterCountryImage).countryMap.get "de" =
        [] := by
  decide

/-- C2, evaluated: a network whose record has none of the four fields is
dropped when it is decoded first; decoded after a record with country "US" it
is listed under "us", `write` calls `Insert` with it, and the tree resolves
its addresses to "us". -/
theorem parse_keeps_network_of_empty_record :
    (parse asciiLower unmarshalPresent emptyAloneImage).countryMap.entries = [] ∧
      (parse asciiLower unmarshalPresent emptyAfterCountryImage).countryMap.entries =
        [⟨"us", [net1, net2]⟩] ∧
      Call.Insert net2 (.String "us") ∈
        (write sortedEnv emptyTree
          (parse asciiLower unmarshalPresent emptyAfterCountryImage).countryMap
          "geoip.db" []).calls ∧
      net2.Contains ip5_6_7_1 = true ∧
      (write sortedEnv emptyTree
          (parse asciiLower unmarshalPresent emptyAfterCountryImage).countryMap
          "geoip.db" []).writer.Lookup ip5_6_7_1 = some (.String "us") := by
  decide

/-- C3, evaluated: in the image with 1.2.3.0/24 of country "US", 5.6.7.0/24 of
continent "EU" only and 9.9.9.0/24 of country "DE", the record of 5.6.7.0/24
on its own resolves to "eu", yet the map lists that network under "us", after
1.2.3.0/24, and has no entry for "eu"; 9.9.9.0/24 is listed under "de". -/
theorem parse_lists_network_under_earlier_code :
    resolveCode asciiLower (unmarshalPresent (storedContinent "EU") Enterprise.zero) =
        some "eu" ∧
      (parse asciiLower unmarshalPresent mixedImage).countryMap.get "us" = [net1, net2] ∧
      (parse asciiLower unmarshalPresent mixedImage).countryMap.get "eu" = [] ∧
      (parse asciiLower unmarshalPresent mixedImage).countryMap.get "de" = [net3] ∧
      (parse asciiLower unmarshalPresent mixedImage).countryMap.keys = ["de", "us"] := by
  decide


/-- C10, evaluated: with a decoder that assigns only the fields whose keys the
stored record holds, the network 5.6.7.0/24 with continent "EU" only is filed
under "eu" when it is decoded first and under "us" when a record with country
"US" was decoded before it: the variable `country`, declared once before the
loop, keeps the country code of the earlier record. -/
theorem parse_keeps_fields_of_earlier_record :
    (parse asciiLower unmarshalPresent continentImage).countryMap.entries = [⟨"eu", [net2]⟩] ∧
      (parse asciiLower unmarshalPresent scenarioImage).countryMap.entries = [⟨"us", [net1, net2]⟩] ∧
      decoded unmarshalPresent scenarioImage =
        [(net1, ⟨⟨"US"⟩, ⟨""⟩, ⟨""⟩, ⟨""⟩⟩), (net2, ⟨⟨"US"⟩, ⟨""⟩, ⟨""⟩, ⟨"EU"⟩⟩)] := by
  decide

theorem seen_of_overwriting {ρ : Type} (unmarshal : ρ → Enterprise → Enterprise)
    (items : List (IPNet × ρ)) (country : Enterprise)
    (hover : ∀ r c c', unmarshal r c = unmarshal r c') :
    seen unmarshal (items.map .ok) country =
      items.map (fun p => (p.1, unmarshal p.2 Enterprise.zero)) := by
  induction items generalizing country with
  | nil => rfl
  | cons p items ih =>
    obtain ⟨ipNet, r⟩ := p
    simp only [List.map_cons, seen, ih]
    rw [hover r country Enterprise.zero]

end SingGeoip
